import Mathlib

/-!
Verification of `server/profile/profile.go`.

A shallow embedding of the start-up profile resolver (`Profile.IsFeatEnabled`,
`checkDSN`, `GetProfile`) together with a small executable model of the parts
of the Go standard library and of the operating system that the resolver
calls (`strings`, `path`, `path/filepath`, `os`).

Modelling decisions:

* Go strings are modelled by `String` (sequences of Unicode code points); the
  only separator bytes the program looks at (`,` and `/`) are ASCII, so
  splitting and trimming agree at the byte and at the code-point level.
* `strings.ToUpper` is exact on ASCII; the Unicode case tables for the runes
  above ASCII are a parameter.
* The file system is a tree of directories and non-directories without
  symbolic links; path names are resolved lexically; the only reasons for
  `mkdir` to fail are a missing or non-directory parent, an existing entry,
  and a directory that refuses new entries.
* `GetProfile` is a function of its surroundings (`Env`), of the outcome of
  `viper.Unmarshal`, and of the world before the call (file system and
  standard output); it returns the pair the Go function returns and the world
  after the call.
-/

set_option autoImplicit false

/-! ## `strings` -/

namespace strings

/-- Pieces of a character sequence between occurrences of the separator
    character `sep`; there is always at least one piece. -/
def splitChars (sep : Char) : List Char → List (List Char)
  | [] => [[]]
  | c :: cs =>
    if c = sep then [] :: splitChars sep cs
    else
      match splitChars sep cs with
      | [] => [[c]]
      | piece :: rest => (c :: piece) :: rest

/-- Go `strings.Split(s, sep)` for a one-byte separator `sep` (the program only
    ever splits on `","`): the substrings of `s` between the separators. -/
def Split (s : String) (sep : Char) : List String :=
  (splitChars sep s.data).map String.mk

/-- Go `strings.Join(elems, sep)`. -/
def Join (elems : List String) (sep : String) : String :=
  String.mk (List.intercalate sep.data (elems.map String.data))

/-- Go `strings.HasPrefix(s, prefix)`. -/
def HasPrefix (s pre : String) : Bool :=
  pre.data.isPrefixOf s.data

/-- Go `strings.TrimRight(s, cutset)`: `s` with all trailing code points
    contained in `cutset` removed. -/
def TrimRight (s cutset : String) : String :=
  String.mk (s.data.rdropWhile (fun c => cutset.data.contains c))

/-- Go `unicode.ToUpper` on one rune: the ASCII range is mapped by the
    fixed rule `a`–`z` ↦ `A`–`Z`; above it the Unicode case tables apply, which
    are a parameter `table` of the model. -/
def upperRune (table : Char → Char) (c : Char) : Char :=
  if c.toNat < 128 then
    if 'a' ≤ c ∧ c ≤ 'z' then Char.ofNat (c.toNat - 32) else c
  else table c

/-- Go `strings.ToUpper(s)`: every rune mapped to its upper case. -/
def ToUpper (table : Char → Char) (s : String) : String :=
  String.mk (s.data.map (upperRune table))

end strings

/-! ## `path` and `path/filepath` (Unix) -/

namespace path

/-- One step of lexical processing of a rooted path: `stack` is the list of
    elements kept so far, `e` the next element between slashes.  Empty and
    `.` elements are dropped, `..` removes the last kept element (and is
    dropped at the root), anything else is kept. -/
def stepRooted (stack : List String) (e : String) : List String :=
  if e = "" ∨ e = "." then stack
  else if e = ".." then stack.dropLast
  else stack ++ [e]

/-- The same step for a path that is not rooted: a `..` that cannot remove a
    kept element is kept itself. -/
def stepRelative (stack : List String) (e : String) : List String :=
  if e = "" ∨ e = "." then stack
  else if e = ".." then
    match stack.getLast? with
    | none => stack ++ [e]
    | some l => if l = ".." then stack ++ [e] else stack.dropLast
  else stack ++ [e]

/-- Go `path.Clean(path)` (and `filepath.Clean` on Unix): the shortest path
    name equivalent to `path` by purely lexical processing.  Multiple slashes
    become one, `.` elements are eliminated, inner `..` elements are eliminated
    with the element before them, `..` elements that begin a rooted path are
    eliminated, and the empty result is `.`. -/
def Clean (p : String) : String :=
  if p = "" then "."
  else if strings.HasPrefix p "/" then
    "/" ++ strings.Join ((strings.Split p '/').foldl stepRooted []) "/"
  else
    match (strings.Split p '/').foldl stepRelative [] with
    | [] => "."
    | st => strings.Join st "/"

/-- Go `path.Join(elem...)`: the non-empty elements joined with slashes and
    cleaned; the empty string when there is none. -/
def Join (elem : List String) : String :=
  match elem.filter (fun e => e ≠ "") with
  | [] => ""
  | es => Clean (strings.Join es "/")

/-- An element that lexical processing keeps as it is: not empty, not `.`,
    not `..`, and without a slash. -/
def Plain (e : String) : Prop :=
  e ≠ "" ∧ e ≠ "." ∧ e ≠ ".." ∧ '/' ∉ e.data

/-- The rooted path name with the elements `st`. -/
def rooted (st : List String) : String :=
  "/" ++ strings.Join st "/"

end path

/-! ## Go error values -/

namespace syscall

/-- The error numbers the file-system model can report. -/
inductive Errno
  | ENOENT
  | EEXIST
  | ENOTDIR
  | EACCES
  deriving DecidableEq, Repr

/-- Go `Errno.Error()`. -/
def Errno.Error : Errno → String
  | .ENOENT => "no such file or directory"
  | .EEXIST => "file exists"
  | .ENOTDIR => "not a directory"
  | .EACCES => "permission denied"

end syscall

/-- Values of Go's `error` interface that can flow through the resolver. -/
inductive GoError
  /-- An error produced by a collaborator (`viper.Unmarshal`, `os.Getwd`),
      known only by its message. -/
  | external (msg : String)
  /-- A `*fs.PathError` with its operation, path and error number. -/
  | pathError (op : String) (path : String) (err : syscall.Errno)
  /-- The `*fmt.wrapError` built by `fmt.Errorf` with a `%w` verb: the
      formatted message and the wrapped error. -/
  | wrapError (msg : String) (err : GoError)
  deriving DecidableEq, Repr

/-- Go `err.Error()`. -/
def GoError.Error : GoError → String
  | .external msg => msg
  | .pathError op path err => op ++ " " ++ path ++ ": " ++ err.Error
  | .wrapError msg _ => msg

/-- Go `errors.Unwrap(err)`. -/
def GoError.Unwrap : GoError → Option GoError
  | .wrapError _ err => some err
  | _ => none

/-! ## `os`: a file-system tree -/

namespace os

/-- A node of the file-system tree: a non-directory, or a directory with its
    entries; `writable` says whether new entries may be created in it (when
    not, creation is refused with `EACCES`). Symbolic links are not modelled. -/
inductive Node
  | file
  | dir (writable : Bool) (entries : List (String × Node))

/-- The state of the file system: the root directory and the current
    working directory of the process (as the list of element names below the
    root). -/
structure FS where
  rootWritable : Bool
  entries : List (String × Node)
  cwd : List String

/-- The root directory as a node. -/
def FS.root (fs : FS) : Node := .dir fs.rootWritable fs.entries

/-- The node reached from `n` by following the element names `names`. -/
def walk : Node → List String → Except syscall.Errno Node
  | n, [] => .ok n
  | .file, _ :: _ => .error .ENOTDIR
  | .dir _ entries, c :: cs =>
    match entries.lookup c with
    | none => .error .ENOENT
    | some n => walk n cs

/-- Replace the node stored under `name`. -/
def setEntry (name : String) (n : Node) : List (String × Node) → List (String × Node)
  | [] => []
  | (k, v) :: rest => if k = name then (k, n) :: rest else (k, v) :: setEntry name n rest

/-- The tree `n` with a new, empty directory created at `names` below it, or
    the error number of `mkdir(2)`. -/
def mkdirAt : Node → List String → Except syscall.Errno Node
  | _, [] => .error .EEXIST
  | .file, _ :: _ => .error .ENOTDIR
  | .dir w entries, [c] =>
    match entries.lookup c with
    | some _ => .error .EEXIST
    | none => if w then .ok (.dir w (entries ++ [(c, .dir true [])])) else .error .EACCES
  | .dir w entries, c :: c2 :: cs =>
    match entries.lookup c with
    | none => .error .ENOENT
    | some n =>
      match mkdirAt n (c2 :: cs) with
      | .error e => .error e
      | .ok m => .ok (.dir w (setEntry c m entries))

/-- Lexical resolution of a path name to the element names below the root:
    a rooted name starts at the root, any other at the working directory; the
    empty name does not resolve. -/
def FS.locate (fs : FS) (name : String) : Option (List String) :=
  if name = "" then none
  else if strings.HasPrefix name "/" then some ((strings.Split name '/').foldl path.stepRooted [])
  else some ((strings.Split name '/').foldl path.stepRooted fs.cwd)

/-- Go `fs.FileInfo`, reduced to what the program and `MkdirAll` look at. -/
structure FileInfo where
  IsDir : Bool
  deriving DecidableEq, Repr

/-- Go `os.Stat(name)` (and `os.Lstat`, there being no symbolic links). -/
def Stat (fs : FS) (name : String) : Except GoError FileInfo :=
  match fs.locate name with
  | none => .error (.pathError "stat" name .ENOENT)
  | some q =>
    match walk fs.root q with
    | .error e => .error (.pathError "stat" name e)
    | .ok .file => .ok ⟨false⟩
    | .ok (.dir _ _) => .ok ⟨true⟩

/-- Go `os.Mkdir(name, perm)`: the error, if any, and the file system
    afterwards.  Directories are created writable (the program passes
    `0755`). -/
def Mkdir (fs : FS) (name : String) : Option GoError × FS :=
  match fs.locate name with
  | none => (some (.pathError "mkdir" name .ENOENT), fs)
  | some q =>
    match mkdirAt fs.root q with
    | .ok (.dir w entries) => (none, { fs with rootWritable := w, entries := entries })
    | .ok .file => (some (.pathError "mkdir" name .ENOTDIR), fs)
    | .error e => (some (.pathError "mkdir" name e), fs)

/-- The parent that `MkdirAll` recurses on: `path[:j-1]` when `j > 1`, where
    `j` is found by skipping the trailing separators of `path` and then
    scanning backward over the last element. -/
def MkdirAll.parent (p : String) : Option String :=
  let upToI := p.data.rdropWhile (fun c => c = '/')
  let upToJ := upToI.rdropWhile (fun c => c ≠ '/')
  if upToJ.length > 1 then some (String.mk upToJ.dropLast) else none

/-- Go `os.MkdirAll(path, perm)` with the recursion on the parent bounded by
    `fuel`. -/
def MkdirAll.go : Nat → FS → String → Option GoError × FS
  | 0, fs, p => (some (.pathError "mkdir" p .ENOENT), fs)
  | fuel + 1, fs, p =>
    -- Fast path: if we can tell whether path is a directory or file, stop.
    match Stat fs p with
    | .ok info =>
      if info.IsDir then (none, fs)
      else (some (.pathError "mkdir" p .ENOTDIR), fs)
    | .error _ =>
      -- Slow path: make sure parent exists and then call Mkdir for path.
      let afterParent : Option GoError × FS :=
        match MkdirAll.parent p with
        | some parent => MkdirAll.go fuel fs parent
        | none => (none, fs)
      match afterParent with
      | (some err, fs1) => (some err, fs1)
      | (none, fs1) =>
        match Mkdir fs1 p with
        | (some err, fs2) =>
          match Stat fs2 p with
          | .ok info => if info.IsDir then (none, fs2) else (some err, fs2)
          | .error _ => (some err, fs2)
        | (none, fs2) => (none, fs2)

/-- Go `os.MkdirAll(path, perm)`: creates the directory `path` along with any
    necessary parents; does nothing when it is already a directory.  Every
    recursive call is on a strictly shorter string, so `length + 1` calls
    suffice. -/
def MkdirAll (fs : FS) (p : String) : Option GoError × FS :=
  MkdirAll.go (p.length + 1) fs p

/-- Go `os.Getwd()`: a rooted path name corresponding to the current
    directory, or the error `failure` when the call fails (for instance
    because the directory has been removed). -/
def Getwd (failure : Option GoError) (fs : FS) : Except GoError String :=
  match failure with
  | some err => .error err
  | none => .ok (path.rooted fs.cwd)

end os

namespace filepath

/-- Go `filepath.IsAbs(path)` on Unix. -/
def IsAbs (p : String) : Bool := strings.HasPrefix p "/"

/-- Go `filepath.Join(elem...)` on Unix: from the first non-empty element on,
    the elements joined with the separator and cleaned. -/
def Join (elem : List String) : String :=
  match elem.dropWhile (fun e => e = "") with
  | [] => ""
  | es => path.Clean (strings.Join es "/")

/-- Go `filepath.Dir(path)` on Unix: all but the last element of `path`,
    cleaned. -/
def Dir (p : String) : String :=
  path.Clean (String.mk (p.data.rdropWhile (fun c => c ≠ '/')))

/-- Go `filepath.Abs(path)` on Unix; `getwd` is the result of `os.Getwd()`. -/
def Abs (getwd : Except GoError String) (p : String) : Except GoError String :=
  if IsAbs p then .ok (path.Clean p)
  else
    match getwd with
    | .error err => .error err
    | .ok wd => .ok (Join [wd, p])

end filepath

/-! ## The profile -/

namespace profile

/-- Go `type Feature string`. -/
abbrev Feature := String

/-- Profile is the configuration to start main server. -/
structure Profile where
  /-- Mode can be "prod" or "dev" or "demo". -/
  Mode : String
  /-- Port is the binding port for server. -/
  Port : Int
  /-- Data is the data directory. -/
  Data : String
  /-- DSN points to where Memos stores its own data. -/
  DSN : String
  /-- Version is the current version of server. -/
  Version : String
  /-- Feat is the feature set of server, split by comma. -/
  Feat : String
  deriving DecidableEq, Repr

def FeatStorageLocal : Feature := "STORAGE_LOCAL"
def FeatSSO : Feature := "SSO"
def FeatStorageS3 : Feature := "STORAGE_S3"

/-- The `for _, f := range …` loop of `IsFeatEnabled`: `true` at the first
    piece equal to `feat`; when the loop ends, the value `after` of the
    statement that follows it. -/
def IsFeatEnabled.loop (feat : Feature) (after : Bool) : List String → Bool
  | [] => after
  | f :: fs => if f = feat then true else IsFeatEnabled.loop feat after fs

/-- Go `func (p *Profile) IsFeatEnabled(feat Feature) bool`. -/
def IsFeatEnabled (p : Profile) (feat : Feature) : Bool :=
  IsFeatEnabled.loop feat (decide (p.Feat = "ALL")) (strings.Split p.Feat ',')

/-- The invariant the specification gives for the `feat` field: literally
    `"ALL"`, or a (possibly empty) comma-separated list of recognised flags. -/
def FeatInvariant (feat : String) : Prop :=
  feat = "ALL" ∨ feat = "" ∨
    ∀ token ∈ strings.Split feat ',',
      token = FeatStorageLocal ∨ token = FeatSSO ∨ token = FeatStorageS3

instance (feat : String) : Decidable (FeatInvariant feat) := by
  unfold FeatInvariant
  infer_instance

/-- What the resolver reads from its surroundings without changing it. -/
structure Env where
  /-- The Unicode upper-case mapping of the runes above ASCII. -/
  upperTable : Char → Char
  /-- The error `os.Getwd()` fails with, when it fails. -/
  getwdFailure : Option GoError
  /-- The value of `os.Args[0]`. -/
  args0 : String
  /-- The function `version.GetCurrentVersion` of the `server/version` package. -/
  GetCurrentVersion : String → String

/-- What the resolver can change: the file system and the standard output. -/
structure World where
  fs : os.FS
  stdout : String

/-- Go `func checkDSN(dataDir string) (string, error)`. -/
def checkDSN (env : Env) (fs : os.FS) (dataDir : String) : Except GoError String :=
  -- Convert to absolute path if relative path is supplied.
  let converted : Except GoError String :=
    if !filepath.IsAbs dataDir then
      filepath.Abs (os.Getwd env.getwdFailure fs) (filepath.Dir env.args0 ++ "/" ++ dataDir)
    else .ok dataDir
  match converted with
  | .error err => .error err
  | .ok dataDir =>
    -- Trim trailing / in case user supplies
    let dataDir := strings.TrimRight dataDir "/"
    match os.Stat fs dataDir with
    | .error err =>
      .error (.wrapError ("unable to access data folder " ++ dataDir ++ ", err " ++ err.Error) err)
    | .ok _ => .ok dataDir

/-- Lines 75–89 of `GetProfile`: mode coercion, feature-flag normalisation
    and defaulting, and the default data directory of `prod`. -/
def GetProfile.defaults (env : Env) (profile : Profile) : Profile :=
  let profile :=
    if profile.Mode ≠ "demo" ∧ profile.Mode ≠ "dev" ∧ profile.Mode ≠ "prod" then
      { profile with Mode := "demo" }
    else profile
  -- Make feat upper
  let profile := { profile with Feat := strings.ToUpper env.upperTable profile.Feat }
  -- If no feature flags are supplied, use all features when not in prod mode.
  let profile :=
    if profile.Feat = "" ∧ profile.Mode ≠ "prod" then { profile with Feat := "ALL" }
    else profile
  if profile.Mode = "prod" ∧ profile.Data = "" then { profile with Data := "/var/opt/memos" }
  else profile

/-- Lines 96–102 of `GetProfile` (mkdir Data/resources): the error of
    `os.MkdirAll`, if any, and the file system afterwards. -/
def GetProfile.provision (profile : Profile) (fs : os.FS) : Option GoError × os.FS :=
  if IsFeatEnabled profile FeatStorageLocal then
    os.MkdirAll fs (path.Join [profile.Data, "resources"])
  else (none, fs)

/-- Go `func GetProfile() (*Profile, error)`.  `unmarshal` is the outcome of
    `viper.Unmarshal(&profile)`: an error, or the profile decoded from the raw
    configuration.  The result is the returned pair together with the world
    the call leaves behind. -/
def GetProfile (env : Env) (unmarshal : Except GoError Profile) (w : World) :
    Except GoError Profile × World :=
  match unmarshal with
  | .error err => (.error err, w)
  | .ok profile =>
    let profile := GetProfile.defaults env profile
    match filepath.Abs (os.Getwd env.getwdFailure w.fs) profile.Data with
    | .error err => (.error err, w)
    | .ok data =>
      let profile := { profile with Data := data }
      match GetProfile.provision profile w.fs with
      | (some err, fs) => (.error err, { w with fs := fs })
      | (none, fs) =>
        match checkDSN env fs profile.Data with
        | .error err =>
          (.error err,
            { fs := fs,
              stdout := w.stdout ++ "Failed to check dsn: " ++ "" ++ ", err: " ++ err.Error ++ "\n" })
        | .ok dataDir =>
          (.ok { profile with
                  Data := dataDir
                  DSN := dataDir ++ "/memos_" ++ profile.Mode ++ ".db"
                  Version := env.GetCurrentVersion profile.Mode },
            { w with fs := fs })

end profile

/-! ## Concrete surroundings used to exercise the definitions -/

namespace example_run

open profile

/-- A file system with `/home/memos/mydata`, a read-only `/etc`, and the
    working directory `/home/memos`. -/
def fs0 : os.FS :=
  { rootWritable := true
    entries :=
      [("home", .dir true [("memos", .dir true [("mydata", .dir true [])])]),
       ("etc", .dir false [])]
    cwd := ["home", "memos"] }

def world0 : World := { fs := fs0, stdout := "" }

/-- Surroundings: ASCII-only case mapping, working directory `/home/memos`. -/
def env0 : Env :=
  { upperTable := id
    getwdFailure := none
    args0 := "/usr/bin/memos"
    GetCurrentVersion := fun mode => "0.11.0-" ++ mode }

/-- The raw configuration of the first scenario of the specification. -/
def rawMyData : Profile :=
  { Mode := "", Port := 8081, Data := "./mydata", DSN := "", Version := "", Feat := "" }

/-- The same with the mode spelt `PROD`. -/
def rawUpperProd : Profile :=
  { Mode := "PROD", Port := 8081, Data := "./mydata", DSN := "", Version := "", Feat := "" }

/-- The third scenario of the specification: lower-case feature flags in `dev`. -/
def rawDevFlags : Profile :=
  { Mode := "dev", Port := 8081, Data := "", DSN := "", Version := "", Feat := "storage_local,sso" }

/-- Production mode without feature flags, on an existing data directory. -/
def rawProdNoFlags : Profile :=
  { Mode := "prod", Port := 8081, Data := "/home/memos/mydata", DSN := "", Version := "",
    Feat := "" }

/-- A feature string whose only token is not a recognised flag. -/
def rawUnknownFlag : Profile :=
  { Mode := "dev", Port := 8081, Data := "mydata", DSN := "", Version := "", Feat := "foo" }

/-- The profile the first scenario resolves to. -/
def resolvedMyData : Profile :=
  { Mode := "demo", Port := 8081, Data := "/home/memos/mydata",
    DSN := "/home/memos/mydata/memos_demo.db", Version := "0.11.0-demo", Feat := "ALL" }

/-- The profile `rawDevFlags` resolves to. -/
def resolvedDevFlags : Profile :=
  { Mode := "dev", Port := 8081, Data := "/home/memos",
    DSN := "/home/memos/memos_dev.db", Version := "0.11.0-dev", Feat := "STORAGE_LOCAL,SSO" }

/-- The profile `rawProdNoFlags` resolves to. -/
def resolvedProdNoFlags : Profile :=
  { Mode := "prod", Port := 8081, Data := "/home/memos/mydata",
    DSN := "/home/memos/mydata/memos_prod.db", Version := "0.11.0-prod", Feat := "" }

/-- The profile `rawUnknownFlag` resolves to. -/
def resolvedUnknownFlag : Profile :=
  { Mode := "dev", Port := 8081, Data := "/home/memos/mydata",
    DSN := "/home/memos/mydata/memos_dev.db", Version := "0.11.0-dev", Feat := "FOO" }

/-- A data directory that does not exist yet, all features enabled by default. -/
def rawNewDir : Profile :=
  { Mode := "dev", Port := 8081, Data := "newdata", DSN := "", Version := "", Feat := "" }

/-- The profile `rawNewDir` resolves to. -/
def resolvedNewDir : Profile :=
  { Mode := "dev", Port := 8081, Data := "/home/memos/newdata",
    DSN := "/home/memos/newdata/memos_dev.db", Version := "0.11.0-dev", Feat := "ALL" }

/-- An existing data directory in which nothing can be created. -/
def rawReadOnly : Profile :=
  { Mode := "dev", Port := 8081, Data := "/etc", DSN := "", Version := "", Feat := "" }

/-- The second scenario of the specification: `prod` without data directory. -/
def rawProdDefault : Profile :=
  { Mode := "prod", Port := 8081, Data := "", DSN := "", Version := "", Feat := "" }

end example_run

/-! ## Lemmas: strings -/

namespace strings

theorem splitChars_ne_nil (sep : Char) (l : List Char) : splitChars sep l ≠ [] := by
  cases l with
  | nil => simp [splitChars]
  | cons c cs =>
    unfold splitChars
    split_ifs
    · simp
    · split <;> simp

/-- No piece of a split contains the separator. -/
theorem splitChars_no_sep (sep : Char) (l : List Char) :
    ∀ piece ∈ splitChars sep l, sep ∉ piece := by
  induction l with
  | nil => simp [splitChars]
  | cons c cs ih =>
    unfold splitChars
    split_ifs with hc
    · intro piece hp
      rcases List.mem_cons.mp hp with h | h
      · simp [h]
      · exact ih piece h
    · split
      · intro piece hp
        simp only [List.mem_singleton] at hp
        subst hp
        simpa using fun e => hc e.symm
      · rename_i first rest heq
        intro piece hp
        rw [heq] at ih
        rcases List.mem_cons.mp hp with h | h
        · subst h
          have := ih first (List.mem_cons_self _ _)
          simp only [List.mem_cons, not_or]
          exact ⟨fun e => hc e.symm, this⟩
        · exact ih piece (List.mem_cons_of_mem _ h)

theorem splitChars_cons_of_ne (sep c : Char) (cs : List Char) (h : c ≠ sep) :
    splitChars sep (c :: cs) =
      match splitChars sep cs with
      | [] => [[c]]
      | piece :: rest => (c :: piece) :: rest := by
  simp [splitChars, h]

theorem splitChars_cons_sep (sep : Char) (cs : List Char) :
    splitChars sep (sep :: cs) = [] :: splitChars sep cs := by
  simp [splitChars]

/-- Splitting a sequence without separator gives that sequence alone. -/
theorem splitChars_of_not_mem (sep : Char) (x : List Char) (hx : sep ∉ x) :
    splitChars sep x = [x] := by
  induction x with
  | nil => rfl
  | cons c cs ih =>
    simp only [List.mem_cons, not_or] at hx
    rw [splitChars_cons_of_ne sep c cs (fun e => hx.1 e.symm), ih hx.2]

/-- Splitting `x ++ sep :: rest`, with no separator in `x`, splits off `x`. -/
theorem splitChars_append_sep (sep : Char) (x rest : List Char) (hx : sep ∉ x) :
    splitChars sep (x ++ sep :: rest) = x :: splitChars sep rest := by
  induction x with
  | nil => simp [splitChars]
  | cons c cs ih =>
    simp only [List.mem_cons, not_or] at hx
    rw [List.cons_append, splitChars_cons_of_ne sep c _ (fun e => hx.1 e.symm), ih hx.2]

theorem intercalate_cons_cons (sep x y : List Char) (rest : List (List Char)) :
    List.intercalate sep (x :: y :: rest) = x ++ sep ++ List.intercalate sep (y :: rest) := by
  simp [List.intercalate, List.intersperse]

/-- Splitting undoes joining, for a non-empty list of separator-free pieces. -/
theorem splitChars_intercalate (sep : Char) (xs : List (List Char)) (hne : xs ≠ [])
    (hx : ∀ x ∈ xs, sep ∉ x) :
    splitChars sep (List.intercalate [sep] xs) = xs := by
  induction xs with
  | nil => exact absurd rfl hne
  | cons x rest ih =>
    cases rest with
    | nil =>
      have : List.intercalate [sep] [x] = x := by simp [List.intercalate, List.intersperse]
      rw [this]
      exact splitChars_of_not_mem sep x (hx x (List.mem_cons_self _ _))
    | cons y rest2 =>
      rw [intercalate_cons_cons, List.append_assoc, List.singleton_append,
        splitChars_append_sep sep x _ (hx x (List.mem_cons_self _ _)),
        ih (by simp) (fun z hz => hx z (List.mem_cons_of_mem _ hz))]

theorem intercalate_concat (sep : List Char) (xs : List (List Char)) (y : List Char)
    (hne : xs ≠ []) :
    List.intercalate sep (xs ++ [y]) = List.intercalate sep xs ++ sep ++ y := by
  induction xs with
  | nil => exact absurd rfl hne
  | cons x rest ih =>
    cases rest with
    | nil => simp [List.intercalate, List.intersperse]
    | cons z rest2 =>
      rw [List.cons_append, List.cons_append, intercalate_cons_cons, ← List.cons_append,
        ih (by simp), intercalate_cons_cons]
      simp [List.append_assoc]

/-- Joining the pieces of a split with the separator gives the sequence back. -/
theorem intercalate_splitChars (sep : Char) (l : List Char) :
    List.intercalate [sep] (splitChars sep l) = l := by
  induction l with
  | nil => simp [splitChars, List.intercalate, List.intersperse]
  | cons c cs ih =>
    by_cases hc : c = sep
    · subst hc
      rw [splitChars_cons_sep]
      cases hsp : splitChars c cs with
      | nil => exact absurd hsp (splitChars_ne_nil _ _)
      | cons y rest =>
        rw [intercalate_cons_cons, ← hsp, ih]
        rfl
    · rw [splitChars_cons_of_ne sep c cs hc]
      cases hsp : splitChars sep cs with
      | nil => exact absurd hsp (splitChars_ne_nil _ _)
      | cons y rest =>
        rw [hsp] at ih
        simp only []
        cases rest with
        | nil =>
          have h1 : List.intercalate [sep] [y] = y := by
            simp [List.intercalate, List.intersperse]
          have h2 : List.intercalate [sep] [c :: y] = c :: y := by
            simp [List.intercalate, List.intersperse]
          rw [h1] at ih
          rw [h2, ih]
        | cons z rest2 =>
          rw [intercalate_cons_cons] at ih ⊢
          rw [← ih]
          simp

/-- The pieces of `Split`, joined with the separator, are the string. -/
theorem Join_Split (s : String) (sep : Char) :
    Join (Split s sep) (String.mk [sep]) = s := by
  unfold Join Split
  apply String.ext
  simp only [List.map_map]
  have : (String.data ∘ String.mk) = id := rfl
  rw [this, List.map_id, intercalate_splitChars]

theorem HasPrefix_slash (s : String) :
    HasPrefix s "/" = true ↔ ∃ t, s.data = '/' :: t := by
  unfold HasPrefix
  have : ("/" : String).data = ['/'] := rfl
  rw [this]
  cases hs : s.data with
  | nil => simp
  | cons c cs =>
    simp only [List.isPrefixOf, List.cons.injEq, Bool.and_eq_true, beq_iff_eq]
    constructor
    · rintro ⟨h, -⟩
      exact ⟨cs, ⟨h.symm, rfl⟩⟩
    · rintro ⟨t, h, -⟩
      cases cs <;> simp [List.isPrefixOf, h]

theorem Split_slashfree (p : String) : ∀ e ∈ Split p '/', '/' ∉ e.data := by
  intro e he
  unfold Split at he
  obtain ⟨piece, hp, rfl⟩ := List.mem_map.mp he
  exact splitChars_no_sep '/' _ piece hp

theorem ToUpper_eq_empty (table : Char → Char) (s : String) :
    ToUpper table s = "" ↔ s = "" := by
  unfold ToUpper
  rw [String.ext_iff, String.ext_iff]
  simp

end strings

/-! ## Lemmas: lexical path processing -/

namespace path

theorem stepRooted_of_plain (st : List String) (e : String) (he : Plain e) :
    stepRooted st e = st ++ [e] := by
  unfold stepRooted
  rw [if_neg (by rintro (h | h); exact he.1 h; exact he.2.1 h), if_neg he.2.2.1]

theorem foldl_stepRooted_of_plain (es : List String) (hes : ∀ e ∈ es, Plain e) :
    ∀ st : List String, es.foldl stepRooted st = st ++ es := by
  induction es with
  | nil => intro st; simp
  | cons e rest ih =>
    intro st
    rw [List.foldl_cons, stepRooted_of_plain st e (hes e (List.mem_cons_self _ _)),
      ih (fun x hx => hes x (List.mem_cons_of_mem _ hx))]
    simp

/-- Lexical processing of slash-free elements keeps plain elements only. -/
theorem foldl_stepRooted_plain (es : List String) (hes : ∀ e ∈ es, '/' ∉ e.data) :
    ∀ st : List String, (∀ e ∈ st, Plain e) → ∀ e ∈ es.foldl stepRooted st, Plain e := by
  induction es with
  | nil => intro st hst; simpa using hst
  | cons e rest ih =>
    intro st hst
    rw [List.foldl_cons]
    apply ih (fun x hx => hes x (List.mem_cons_of_mem _ hx))
    intro x hx
    unfold stepRooted at hx
    split_ifs at hx with h1 h2
    · exact hst x hx
    · exact hst x (List.dropLast_subset _ hx)
    · rcases List.mem_append.mp hx with h | h
      · exact hst x h
      · simp only [List.mem_singleton] at h
        subst h
        exact ⟨fun h => h1 (Or.inl h), fun h => h1 (Or.inr h), h2,
          hes x (List.mem_cons_self _ _)⟩

theorem rooted_data (st : List String) :
    (rooted st).data = '/' :: List.intercalate ['/'] (st.map String.data) := by
  unfold rooted strings.Join
  rfl

theorem rooted_nil : rooted [] = "/" := by decide

theorem rooted_ne_empty (st : List String) : rooted st ≠ "" := by
  intro h
  have := congrArg String.data h
  rw [rooted_data] at this
  exact absurd this (by simp)

theorem HasPrefix_rooted (st : List String) : strings.HasPrefix (rooted st) "/" = true :=
  (strings.HasPrefix_slash _).mpr ⟨_, rooted_data st⟩

/-- The elements of a rooted name of plain elements, read back by `Split`. -/
theorem Split_rooted (st : List String) (hne : st ≠ []) (hst : ∀ e ∈ st, Plain e) :
    strings.Split (rooted st) '/' = "" :: st := by
  unfold strings.Split
  rw [rooted_data, strings.splitChars_cons_sep,
    strings.splitChars_intercalate '/' _ (by simpa using hne)
      (by
        intro x hx
        obtain ⟨e, he, rfl⟩ := List.mem_map.mp hx
        exact (hst e he).2.2.2)]
  simp only [List.map_cons, List.map_map]
  congr 1
  exact List.map_id _

/-- Lexical processing of a rooted name of plain elements gives them back. -/
theorem foldl_Split_rooted (st : List String) (hst : ∀ e ∈ st, Plain e) :
    (strings.Split (rooted st) '/').foldl stepRooted [] = st := by
  by_cases hne : st = []
  · subst hne
    decide
  · rw [Split_rooted st hne hst, List.foldl_cons]
    have : stepRooted [] "" = [] := by decide
    rw [this, foldl_stepRooted_of_plain st hst]
    simp

/-- `Clean` of a rooted name is a rooted name of plain elements. -/
theorem Clean_of_HasPrefix (p : String) (hp : strings.HasPrefix p "/" = true) :
    ∃ st, (∀ e ∈ st, Plain e) ∧ Clean p = rooted st := by
  refine ⟨(strings.Split p '/').foldl stepRooted [], ?_, ?_⟩
  · exact foldl_stepRooted_plain _ (strings.Split_slashfree p) [] (by simp)
  · unfold Clean
    have hne : p ≠ "" := by
      rintro rfl
      exact absurd hp (by decide)
    rw [if_neg hne, if_pos hp]
    rfl

/-- The data of a rooted name of plain elements ends in a character other
    than the slash, unless there is no element. -/
theorem rooted_data_concat (st : List String) (hne : st ≠ []) (hst : ∀ e ∈ st, Plain e) :
    ∃ l c, (rooted st).data = l ++ [c] ∧ c ≠ '/' := by
  rcases List.eq_nil_or_concat st with h | ⟨xs, y, h⟩
  · exact absurd h hne
  · rw [List.concat_eq_append] at h
    subst h
    have hy : Plain y := hst y (by simp)
    have hyd : y.data ≠ [] := by
      intro h0
      exact hy.1 (String.ext h0)
    rcases List.eq_nil_or_concat y.data with h | ⟨ys, c, h⟩
    · exact absurd h hyd
    · rw [List.concat_eq_append] at h
      have hc : c ≠ '/' := by
        intro hc
        apply hy.2.2.2
        rw [h, hc]
        simp
      rw [rooted_data, List.map_append, List.map_singleton]
      by_cases hx : xs = []
      · subst hx
        refine ⟨'/' :: ys, c, ?_, hc⟩
        simp [List.intercalate, List.intersperse, h]
      · refine ⟨'/' :: (List.intercalate ['/'] (xs.map String.data) ++ ['/'] ++ ys), c, ?_, hc⟩
        rw [strings.intercalate_concat _ _ _ (by simpa using hx), h]
        simp [List.append_assoc]

/-- Trimming trailing slashes leaves a rooted name other than `/` unchanged. -/
theorem TrimRight_rooted (st : List String) (hne : st ≠ []) (hst : ∀ e ∈ st, Plain e) :
    strings.TrimRight (rooted st) "/" = rooted st := by
  obtain ⟨l, c, hd, hc⟩ := rooted_data_concat st hne hst
  unfold strings.TrimRight
  apply String.ext
  show List.rdropWhile _ (rooted st).data = (rooted st).data
  rw [hd, List.rdropWhile_concat_neg]
  have : ("/" : String).data = ['/'] := rfl
  rw [this]
  simpa using hc

theorem rooted_concat (st : List String) (e : String) (hne : st ≠ []) :
    rooted (st ++ [e]) = rooted st ++ "/" ++ e := by
  apply String.ext
  rw [String.data_append, String.data_append, rooted_data, rooted_data, List.map_append,
    List.map_singleton, strings.intercalate_concat _ _ _ (by simpa using hne)]
  have : ("/" : String).data = ['/'] := rfl
  rw [this]
  simp [List.append_assoc]

/-- `path.Join` of a rooted name of plain elements and one more plain
    element appends that element. -/
theorem Join_rooted (st : List String) (e : String) (hst : ∀ x ∈ st, Plain x)
    (he : Plain e) :
    Join [rooted st, e] = rooted (st ++ [e]) := by
  have hall : ∀ x ∈ st ++ [e], Plain x := by
    intro x hx
    rcases List.mem_append.mp hx with h | h
    · exact hst x h
    · simp only [List.mem_singleton] at h
      exact h ▸ he
  have hfilter : [rooted st, e].filter (fun x => x ≠ "") = [rooted st, e] := by
    simp [rooted_ne_empty, he.1]
  have hjoin : strings.Join [rooted st, e] "/" = rooted st ++ "/" ++ e := by
    apply String.ext
    simp [strings.Join, List.intercalate, List.intersperse, String.data_append]
  unfold Join
  rw [hfilter]
  simp only []
  rw [hjoin]
  by_cases hne : st = []
  · subst hne
    have hsplit : strings.Split (rooted [] ++ "/" ++ e) '/' = ["", "", e] := by
      unfold strings.Split
      have hd : (rooted [] ++ "/" ++ e).data = '/' :: '/' :: e.data := by
        rw [String.data_append, String.data_append, rooted_data]
        rfl
      rw [hd, strings.splitChars_cons_sep, strings.splitChars_cons_sep,
        strings.splitChars_of_not_mem _ _ he.2.2.2]
      rfl
    have hpre : strings.HasPrefix (rooted [] ++ "/" ++ e) "/" = true := by
      rw [strings.HasPrefix_slash]
      exact ⟨'/' :: e.data, by rw [String.data_append, String.data_append, rooted_data]; rfl⟩
    have hnz : rooted [] ++ "/" ++ e ≠ "" := by
      intro h0
      rw [h0] at hpre
      exact absurd hpre (by decide)
    unfold Clean
    rw [if_neg hnz, if_pos hpre, hsplit]
    have h1 : stepRooted [] "" = [] := by decide
    simp only [List.foldl_cons, List.foldl_nil, h1, stepRooted_of_plain [] e he]
    rfl
  · rw [← rooted_concat st e hne]
    unfold Clean
    rw [if_neg (rooted_ne_empty _), if_pos (HasPrefix_rooted _), foldl_Split_rooted _ hall]
    rfl

theorem plain_resources : Plain "resources" := by
  unfold Plain
  decide

end path

namespace os

/-- `Getwd` returns a rooted name. -/
theorem Getwd_rooted (failure : Option GoError) (fs : FS) :
    ∀ wd, Getwd failure fs = .ok wd → filepath.IsAbs wd = true := by
  intro wd h
  unfold Getwd at h
  cases failure with
  | some err => simp at h
  | none =>
    simp only [Except.ok.injEq] at h
    rw [← h]
    exact path.HasPrefix_rooted _

end os

namespace filepath

/-- A successful `filepath.Abs`, the working directory being rooted, is a
    rooted name of plain elements. -/
theorem Abs_rooted (getwd : Except GoError String) (p data : String)
    (hwd : ∀ wd, getwd = .ok wd → IsAbs wd = true)
    (h : Abs getwd p = .ok data) :
    ∃ st, (∀ e ∈ st, path.Plain e) ∧ data = path.rooted st := by
  unfold Abs at h
  split_ifs at h with hp
  · simp only [Except.ok.injEq] at h
    obtain ⟨st, hst, hc⟩ := path.Clean_of_HasPrefix p hp
    exact ⟨st, hst, by rw [← h, hc]⟩
  · cases hg : getwd with
    | error err => rw [hg] at h; simp at h
    | ok wd =>
      rw [hg] at h
      simp only [Except.ok.injEq] at h
      have hw : strings.HasPrefix wd "/" = true := hwd wd hg
      obtain ⟨t, ht⟩ := (strings.HasPrefix_slash wd).mp hw
      have hwne : wd ≠ "" := by
        rintro rfl
        exact absurd hw (by decide)
      have hj : Join [wd, p] = path.Clean (strings.Join [wd, p] "/") := by
        unfold Join
        simp [List.dropWhile, hwne]
      have hpre : strings.HasPrefix (strings.Join [wd, p] "/") "/" = true := by
        rw [strings.HasPrefix_slash]
        refine ⟨t ++ '/' :: p.data, ?_⟩
        simp [strings.Join, List.intercalate, List.intersperse, ht]
      obtain ⟨st, hst, hc⟩ := path.Clean_of_HasPrefix _ hpre
      exact ⟨st, hst, by rw [← h, hj, hc]⟩

end filepath

/-! ## Lemmas: the file-system model -/

namespace os

theorem locate_empty (fs : FS) : fs.locate "" = none := by
  unfold FS.locate
  rw [if_pos rfl]

/-- A rooted name of plain elements resolves to these elements. -/
theorem locate_rooted (fs : FS) (st : List String) (hst : ∀ e ∈ st, path.Plain e) :
    fs.locate (path.rooted st) = some st := by
  unfold FS.locate
  rw [if_neg (path.rooted_ne_empty st), if_pos (path.HasPrefix_rooted st),
    path.foldl_Split_rooted st hst]

theorem Stat_empty (fs : FS) : Stat fs "" = .error (.pathError "stat" "" .ENOENT) := by
  unfold Stat
  rw [locate_empty]

theorem lookup_setEntry (name : String) (n : Node) (entries : List (String × Node))
    (h : (entries.lookup name).isSome) :
    (setEntry name n entries).lookup name = some n := by
  induction entries with
  | nil => simp at h
  | cons kv rest ih =>
    obtain ⟨k, v⟩ := kv
    unfold setEntry
    by_cases hk : k = name
    · rw [if_pos hk, hk]
      simp
    · rw [if_neg hk]
      have hb : (name == k) = false := by
        simpa using fun e => hk e.symm
      rw [List.lookup_cons, hb] at h ⊢
      exact ih h

/-- The directory created by `mkdirAt` is found, empty, at the place asked. -/
theorem walk_mkdirAt (q : List String) :
    ∀ (n m : Node), mkdirAt n q = .ok m → walk m q = .ok (.dir true []) := by
  induction q with
  | nil =>
    intro n m h
    simp [mkdirAt] at h
  | cons c cs ih =>
    intro n m h
    cases n with
    | file => simp [mkdirAt] at h
    | dir wr entries =>
      cases cs with
      | nil =>
        simp only [mkdirAt] at h
        split at h
        · simp at h
        · rename_i hl
          split_ifs at h with hw
          simp only [Except.ok.injEq] at h
          subst h
          simp [walk, List.lookup_append, hl]
      | cons c2 cs2 =>
        simp only [mkdirAt] at h
        split at h
        · simp at h
        · rename_i n2 hl
          split at h
          · simp at h
          · rename_i m2 hm
            simp only [Except.ok.injEq] at h
            subst h
            simp only [walk]
            rw [lookup_setEntry c m2 entries (by simp [hl])]
            exact ih n2 m2 hm

/-- `mkdirAt` on a directory yields a directory. -/
theorem mkdirAt_dir (q : List String) (wr : Bool) (entries : List (String × Node)) (m : Node)
    (h : mkdirAt (.dir wr entries) q = .ok m) : ∃ wr2 entries2, m = .dir wr2 entries2 := by
  cases q with
  | nil => simp [mkdirAt] at h
  | cons c cs =>
    cases cs with
    | nil =>
      simp only [mkdirAt] at h
      split at h
      · simp at h
      · split_ifs at h
        simp only [Except.ok.injEq] at h
        exact ⟨_, _, h.symm⟩
    | cons c2 cs2 =>
      simp only [mkdirAt] at h
      split at h
      · simp at h
      · split at h
        · simp at h
        · simp only [Except.ok.injEq] at h
          exact ⟨_, _, h.symm⟩

/-- A walk that goes on below a name has found a directory there. -/
theorem walk_append_dir (a : List String) (c : String) (cs : List String) :
    ∀ (n m : Node), walk n (a ++ c :: cs) = .ok m →
      ∃ wr entries, walk n a = .ok (.dir wr entries) := by
  induction a with
  | nil =>
    intro n m h
    cases n with
    | file => simp [walk] at h
    | dir wr entries => exact ⟨wr, entries, by simp [walk]⟩
  | cons d ds ih =>
    intro n m h
    cases n with
    | file => simp [walk] at h
    | dir wr entries =>
      simp only [List.cons_append, walk] at h ⊢
      split at h
      · simp at h
      · rename_i n2 hl
        exact ih n2 m h

/-- `Stat` succeeds exactly when the walk to the resolved name does. -/
theorem Stat_ok_iff_walk (fs : FS) (name : String) (q : List String)
    (hq : fs.locate name = some q) :
    (∃ info, Stat fs name = .ok info) ↔ ∃ n, walk fs.root q = .ok n := by
  unfold Stat
  rw [hq]
  simp only []
  cases hw : walk fs.root q with
  | error e => simp
  | ok n =>
    cases n with
    | file => simp
    | dir wr entries => simp

/-- After a successful `Mkdir` the name is a directory. -/
theorem Stat_Mkdir (fs fs2 : FS) (name : String) (h : Mkdir fs name = (none, fs2)) :
    Stat fs2 name = .ok ⟨true⟩ := by
  unfold Mkdir at h
  cases hq : fs.locate name with
  | none => rw [hq] at h; simp at h
  | some q =>
    rw [hq] at h
    simp only [] at h
    cases hm : mkdirAt fs.root q with
    | error e => rw [hm] at h; simp at h
    | ok m =>
      rw [hm] at h
      cases m with
      | file => simp at h
      | dir wr entries =>
        simp only [Prod.mk.injEq, true_and] at h
        have hcwd : fs2.cwd = fs.cwd := by rw [← h]
        have hroot : fs2.root = .dir wr entries := by rw [← h]; rfl
        have hq2 : fs2.locate name = some q := by
          unfold FS.locate at hq ⊢
          rw [hcwd]
          exact hq
        unfold Stat
        rw [hq2]
        simp only []
        rw [hroot, walk_mkdirAt q fs.root _ hm]

/-- After a successful `MkdirAll` the name is a directory. -/
theorem Stat_MkdirAll_go (fuel : Nat) (fs fs2 : FS) (p : String)
    (h : MkdirAll.go fuel fs p = (none, fs2)) : Stat fs2 p = .ok ⟨true⟩ := by
  cases fuel with
  | zero => simp [MkdirAll.go] at h
  | succ k =>
    unfold MkdirAll.go at h
    split at h
    · rename_i info hs
      split_ifs at h with hd
      · simp only [Prod.mk.injEq, true_and] at h
        rw [← h, hs]
        cases info
        simp_all
      · simp at h
    · simp only [] at h
      split at h
      · simp at h
      · rename_i fs1 _
        split at h
        · rename_i err fs3 hmk
          split at h
          · rename_i info hs
            split_ifs at h with hd
            · simp only [Prod.mk.injEq, true_and] at h
              rw [← h, hs]
              cases info
              simp_all
            · simp at h
          · simp at h
        · rename_i fs3 hmk
          simp only [Prod.mk.injEq, true_and] at h
          rw [← h]
          exact Stat_Mkdir _ _ _ hmk

theorem Stat_MkdirAll (fs fs2 : FS) (p : String) (h : MkdirAll fs p = (none, fs2)) :
    Stat fs2 p = .ok ⟨true⟩ :=
  Stat_MkdirAll_go _ fs fs2 p h

/-- The parent `MkdirAll` recurses on is a strictly shorter string. -/
theorem MkdirAll.parent_length (p q : String) (h : MkdirAll.parent p = some q) :
    q.length < p.length := by
  unfold MkdirAll.parent at h
  simp only [] at h
  split_ifs at h with hlen
  simp only [Option.some.injEq] at h
  subst h
  show (List.dropLast _).length < p.data.length
  rw [List.length_dropLast]
  have h1 := (List.rdropWhile_prefix (fun c => decide (c ≠ '/'))
    (List.rdropWhile (fun c => decide (c = '/')) p.data)).length_le
  have h2 := (List.rdropWhile_prefix (fun c => decide (c = '/')) p.data).length_le
  omega

/-- The result of `MkdirAll.go` does not depend on the fuel, once it exceeds
    the length of the name: the recursion never runs out of fuel. -/
theorem MkdirAll.go_fuel (n : Nat) :
    ∀ (m : Nat) (fs : FS) (p : String), p.length < n → p.length < m →
      MkdirAll.go n fs p = MkdirAll.go m fs p := by
  induction n with
  | zero => intro m fs p h; exact absurd h (Nat.not_lt_zero _)
  | succ k ih =>
    intro m fs p hn hm
    cases m with
    | zero => exact absurd hm (Nat.not_lt_zero _)
    | succ j =>
      cases hpar : MkdirAll.parent p with
      | none => simp only [MkdirAll.go, hpar]
      | some q =>
        have hq := MkdirAll.parent_length p q hpar
        simp only [MkdirAll.go, hpar]
        rw [ih j fs q (by omega) (by omega)]

/-- `MkdirAll` is `MkdirAll.go` at any sufficient fuel. -/
theorem MkdirAll_eq_go (fs : FS) (p : String) (n : Nat) (h : p.length < n) :
    MkdirAll.go n fs p = MkdirAll fs p :=
  MkdirAll.go_fuel n (p.length + 1) fs p h (Nat.lt_succ_self _)

/-- When `rooted st / e` exists, `rooted st` is a directory. -/
theorem Stat_parent_of_Stat (fs : FS) (st : List String) (e : String)
    (hst : ∀ x ∈ st, path.Plain x) (he : path.Plain e) (info : FileInfo)
    (h : Stat fs (path.rooted (st ++ [e])) = .ok info) :
    Stat fs (path.rooted st) = .ok ⟨true⟩ := by
  have hall : ∀ x ∈ st ++ [e], path.Plain x := by
    intro x hx
    rcases List.mem_append.mp hx with h | h
    · exact hst x h
    · simp only [List.mem_singleton] at h
      exact h ▸ he
  obtain ⟨n, hn⟩ := (Stat_ok_iff_walk fs _ _ (locate_rooted fs _ hall)).mp ⟨info, h⟩
  obtain ⟨wr, entries, hk⟩ := walk_append_dir st e [] fs.root n hn
  unfold Stat
  rw [locate_rooted fs _ hst]
  simp only []
  rw [hk]

end os

/-! ## Lemmas: the resolver -/

namespace profile

theorem IsFeatEnabled.loop_eq_true (feat : Feature) (after : Bool) (l : List String) :
    IsFeatEnabled.loop feat after l = true ↔ feat ∈ l ∨ after = true := by
  induction l with
  | nil => simp [IsFeatEnabled.loop]
  | cons f fs ih =>
    unfold IsFeatEnabled.loop
    by_cases h : f = feat
    · simp [h]
    · have h2 : ¬ feat = f := fun e => h e.symm
      simp [h, h2, ih]

theorem defaults_Mode (env : Env) (raw : Profile) :
    (GetProfile.defaults env raw).Mode =
      if raw.Mode = "demo" ∨ raw.Mode = "dev" ∨ raw.Mode = "prod" then raw.Mode else "demo" := by
  unfold GetProfile.defaults
  simp only []
  split_ifs <;> simp_all

theorem defaults_Feat (env : Env) (raw : Profile) :
    (GetProfile.defaults env raw).Feat =
      if raw.Feat = "" then (if raw.Mode = "prod" then "" else "ALL")
      else strings.ToUpper env.upperTable raw.Feat := by
  unfold GetProfile.defaults
  simp only [strings.ToUpper_eq_empty]
  split_ifs <;> simp_all [strings.ToUpper_eq_empty]

/-- Inversion of a successful `GetProfile`: every stage succeeded, and the
    returned profile is the defaulted one with the three derived fields set. -/
theorem GetProfile_ok_inv {env : Env} {raw p : Profile} {w : World}
    (h : (GetProfile env (.ok raw) w).1 = .ok p) :
    ∃ data dataDir fs,
      filepath.Abs (os.Getwd env.getwdFailure w.fs) (GetProfile.defaults env raw).Data
        = .ok data ∧
      GetProfile.provision { GetProfile.defaults env raw with Data := data } w.fs = (none, fs) ∧
      checkDSN env fs data = .ok dataDir ∧
      p = { GetProfile.defaults env raw with
              Data := dataDir
              DSN := dataDir ++ "/memos_" ++ (GetProfile.defaults env raw).Mode ++ ".db"
              Version := env.GetCurrentVersion (GetProfile.defaults env raw).Mode } ∧
      (GetProfile env (.ok raw) w).2 = { w with fs := fs } := by
  unfold GetProfile at h ⊢
  simp only [] at h ⊢
  split at h
  · simp at h
  · rename_i data hAbs
    split at h
    · simp at h
    · rename_i fs hProv
      split at h
      · simp at h
      · rename_i dataDir hChk
        simp only [Except.ok.injEq] at h
        refine ⟨data, dataDir, fs, hAbs, hProv, hChk, h.symm, ?_⟩
        simp only [hAbs, hProv, hChk]

theorem IsFeatEnabled_congr (p q : Profile) (t : Feature) (h : p.Feat = q.Feat) :
    IsFeatEnabled p t = IsFeatEnabled q t := by
  unfold IsFeatEnabled
  rw [h]

/-- The provisioning step in terms of the defaulted profile and the
    absolutised data path. -/
theorem provision_eq (d : Profile) (data : String) (fs : os.FS) :
    GetProfile.provision { d with Data := data } fs =
      if IsFeatEnabled d FeatStorageLocal = true then
        os.MkdirAll fs (path.Join [data, "resources"])
      else (none, fs) := rfl

/-- On a rooted name other than `/`, `checkDSN` is the stat check alone. -/
theorem checkDSN_rooted (env : Env) (fs : os.FS) (st : List String) (hne : st ≠ [])
    (hst : ∀ e ∈ st, path.Plain e) :
    checkDSN env fs (path.rooted st) =
      match os.Stat fs (path.rooted st) with
      | .error err =>
        .error (.wrapError
          ("unable to access data folder " ++ path.rooted st ++ ", err " ++ err.Error) err)
      | .ok _ => .ok (path.rooted st) := by
  unfold checkDSN
  have habs : filepath.IsAbs (path.rooted st) = true := path.HasPrefix_rooted st
  simp only [habs, Bool.not_true, Bool.false_eq_true, if_false,
    path.TrimRight_rooted st hne hst]

/-- On `/`, `checkDSN` trims the name to the empty string and fails. -/
theorem checkDSN_root (env : Env) (fs : os.FS) :
    checkDSN env fs (path.rooted []) =
      .error (.wrapError ("unable to access data folder " ++ "" ++ ", err " ++
        (GoError.pathError "stat" "" .ENOENT).Error) (.pathError "stat" "" .ENOENT)) := by
  unfold checkDSN
  have habs : filepath.IsAbs (path.rooted []) = true := path.HasPrefix_rooted []
  have htrim : strings.TrimRight (path.rooted []) "/" = "" := by decide
  simp only [habs, Bool.not_true, Bool.false_eq_true, if_false, htrim, os.Stat_empty]

/-- On success the data directory is a rooted name of at least one plain
    element, unchanged by `checkDSN`. -/
theorem GetProfile_ok_data {env : Env} {raw p : Profile} {w : World}
    (h : (GetProfile env (.ok raw) w).1 = .ok p) :
    ∃ st fs, st ≠ [] ∧ (∀ e ∈ st, path.Plain e) ∧ p.Data = path.rooted st ∧
      filepath.Abs (os.Getwd env.getwdFailure w.fs) (GetProfile.defaults env raw).Data
        = .ok (path.rooted st) ∧
      GetProfile.provision
        { GetProfile.defaults env raw with Data := path.rooted st } w.fs = (none, fs) ∧
      (GetProfile env (.ok raw) w).2 = { w with fs := fs } := by
  obtain ⟨data, dataDir, fs, hAbs, hProv, hChk, hp, hw⟩ := GetProfile_ok_inv h
  obtain ⟨st, hst, hd⟩ := filepath.Abs_rooted _ _ _ (os.Getwd_rooted _ _) hAbs
  subst hd
  have hne : st ≠ [] := by
    rintro rfl
    rw [checkDSN_root] at hChk
    simp at hChk
  rw [checkDSN_rooted env fs st hne hst] at hChk
  split at hChk
  · simp at hChk
  · simp only [Except.ok.injEq] at hChk
    refine ⟨st, fs, hne, hst, ?_, hAbs, hProv, hw⟩
    rw [hp, ← hChk]

/-- The `Feat` of a successfully resolved profile, from the input. -/
theorem GetProfile_ok_Feat {env : Env} {raw p : Profile} {w : World}
    (h : (GetProfile env (.ok raw) w).1 = .ok p) :
    p.Feat =
      if raw.Feat = "" then (if raw.Mode = "prod" then "" else "ALL")
      else strings.ToUpper env.upperTable raw.Feat := by
  obtain ⟨data, dataDir, fs, -, -, -, hp, -⟩ := GetProfile_ok_inv h
  rw [← defaults_Feat, hp]

end profile

/-! ## The claims -/

namespace profile

open example_run

/-- C1: `IsFeatEnabled` is exact membership: it is true iff the queried token
    equals one of the pieces of `Feat` split on `,`, or `Feat` is exactly
    `"ALL"`; with `Feat = "ALL"` it is true for every token; and there is no
    prefix, substring or case-insensitive match (with
    `Feat = "STORAGE_LOCAL,SSO"`: `SSO` is enabled, `STORAGE_S3`, `STORAGE`,
    `SS` and `sso` are not). -/
theorem C1_IsFeatEnabled_exact_membership :
    (∀ (p : Profile) (t : Feature),
      IsFeatEnabled p t = true ↔ (t ∈ strings.Split p.Feat ',' ∨ p.Feat = "ALL")) ∧
    (∀ (mode : String) (port : Int) (data dsn version : String) (t : Feature),
      IsFeatEnabled ⟨mode, port, data, dsn, version, "ALL"⟩ t = true) ∧
    IsFeatEnabled ⟨"dev", 0, "", "", "", "STORAGE_LOCAL,SSO"⟩ "SSO" = true ∧
    IsFeatEnabled ⟨"dev", 0, "", "", "", "STORAGE_LOCAL,SSO"⟩ "STORAGE_S3" = false ∧
    IsFeatEnabled ⟨"dev", 0, "", "", "", "STORAGE_LOCAL,SSO"⟩ "STORAGE" = false ∧
    IsFeatEnabled ⟨"dev", 0, "", "", "", "STORAGE_LOCAL,SSO"⟩ "SS" = false ∧
    IsFeatEnabled ⟨"dev", 0, "", "", "", "STORAGE_LOCAL,SSO"⟩ "sso" = false := by
  refine ⟨?_, ?_, by decide, by decide, by decide, by decide, by decide⟩
  · intro p t
    unfold IsFeatEnabled
    rw [IsFeatEnabled.loop_eq_true]
    simp
  · intro mode port data dsn version t
    unfold IsFeatEnabled
    rw [IsFeatEnabled.loop_eq_true]
    simp

/-- C2: on every successful resolution the resolved `Mode` is one of `demo`,
    `dev`, `prod`; it is the input mode when that is exactly one of the three,
    and `demo` for every other input. -/
theorem C2_mode_coercion (env : Env) (raw p : Profile) (w : World)
    (h : (GetProfile env (.ok raw) w).1 = .ok p) :
    (p.Mode = "demo" ∨ p.Mode = "dev" ∨ p.Mode = "prod") ∧
    ((raw.Mode = "demo" ∨ raw.Mode = "dev" ∨ raw.Mode = "prod") → p.Mode = raw.Mode) ∧
    (¬ (raw.Mode = "demo" ∨ raw.Mode = "dev" ∨ raw.Mode = "prod") → p.Mode = "demo") := by
  obtain ⟨data, dataDir, fs, -, -, -, hp, -⟩ := GetProfile_ok_inv h
  have hm : p.Mode = (GetProfile.defaults env raw).Mode := by rw [hp]
  rw [hm, defaults_Mode]
  refine ⟨?_, ?_, ?_⟩
  · split_ifs with hc
    · exact hc
    · exact Or.inl rfl
  · intro hc
    rw [if_pos hc]
  · intro hc
    rw [if_neg hc]

/-- Witness of C2: the spelling `PROD` is not one of the three modes, the
    resolution succeeds, and the resolved mode is `demo`. -/
theorem C2_mode_coercion_witness :
    (GetProfile env0 (.ok rawUpperProd) world0).1 = .ok resolvedMyData ∧
    resolvedMyData.Mode = "demo" :=
  ⟨rfl, (C2_mode_coercion env0 rawUpperProd resolvedMyData world0 rfl).2.2 (by decide)⟩

/-- C3: on every successful resolution the resolved `Feat` is `"ALL"` when
    the input feat is empty and the mode is not `prod`, the empty string when
    the input feat is empty and the mode is `prod`, and the upper-cased input
    feat in every other case.  (The input mode is `prod` exactly when the
    resolved mode is.) -/
theorem C3_feat_normalisation (env : Env) (raw p : Profile) (w : World)
    (h : (GetProfile env (.ok raw) w).1 = .ok p) :
    (raw.Feat = "" ∧ raw.Mode ≠ "prod" → p.Feat = "ALL") ∧
    (raw.Feat = "" ∧ raw.Mode = "prod" → p.Feat = "") ∧
    (raw.Feat ≠ "" → p.Feat = strings.ToUpper env.upperTable raw.Feat) ∧
    (raw.Mode = "prod" ↔ p.Mode = "prod") := by
  obtain ⟨data, dataDir, fs, -, -, -, hp, -⟩ := GetProfile_ok_inv h
  have hf : p.Feat = (GetProfile.defaults env raw).Feat := by rw [hp]
  have hm : p.Mode = (GetProfile.defaults env raw).Mode := by rw [hp]
  rw [hf, hm, defaults_Feat, defaults_Mode]
  refine ⟨?_, ?_, ?_, ?_⟩
  · rintro ⟨h1, h2⟩
    rw [if_pos h1, if_neg h2]
  · rintro ⟨h1, h2⟩
    rw [if_pos h1, if_pos h2]
  · intro h1
    rw [if_neg h1]
  · split_ifs with hc
    · exact Iff.rfl
    · constructor
      · intro h1
        exact absurd (Or.inr (Or.inr h1)) hc
      · intro h1
        exact absurd h1 (by decide)

/-- Witness of C3: input mode `dev` with feat `storage_local,sso` resolves to
    `Feat = "STORAGE_LOCAL,SSO"`. -/
theorem C3_feat_normalisation_witness :
    (GetProfile env0 (.ok rawDevFlags) world0).1 = .ok resolvedDevFlags ∧
    resolvedDevFlags.Feat = "STORAGE_LOCAL,SSO" ∧
    strings.ToUpper env0.upperTable rawDevFlags.Feat = "STORAGE_LOCAL,SSO" :=
  ⟨rfl, by decide,
    ((C3_feat_normalisation env0 rawDevFlags resolvedDevFlags world0 rfl).2.2.1
      (by decide)).symm.trans (by decide)⟩

/-- C5: on every successful resolution the returned profile satisfies
    `DSN = Data ++ "/memos_" ++ Mode ++ ".db"`, on the returned `Data` and
    `Mode`. -/
theorem C5_dsn_format (env : Env) (raw p : Profile) (w : World)
    (h : (GetProfile env (.ok raw) w).1 = .ok p) :
    p.DSN = p.Data ++ "/memos_" ++ p.Mode ++ ".db" := by
  obtain ⟨data, dataDir, fs, -, -, -, hp, -⟩ := GetProfile_ok_inv h
  rw [hp]

/-- Witness of C5: the input with empty mode, empty feat and data `./mydata`,
    the directory existing below the working directory `/home/memos`, yields
    `DSN = "/home/memos/mydata/memos_demo.db"`. -/
theorem C5_dsn_format_witness :
    (GetProfile env0 (.ok rawMyData) world0).1 = .ok resolvedMyData ∧
    resolvedMyData.DSN = "/home/memos/mydata/memos_demo.db" ∧
    resolvedMyData.DSN = resolvedMyData.Data ++ "/memos_" ++ resolvedMyData.Mode ++ ".db" :=
  ⟨rfl, by decide, C5_dsn_format env0 rawMyData resolvedMyData world0 rfl⟩

/-- C6: on every successful resolution whose input feat is empty: if the
    input mode is `prod`, `IsFeatEnabled` is false on the resolved profile for
    each recognised feature; if the input mode is anything else, it is true for
    every feature. -/
theorem C6_production_safety (env : Env) (raw p : Profile) (w : World)
    (h : (GetProfile env (.ok raw) w).1 = .ok p) (hfeat : raw.Feat = "") :
    (raw.Mode = "prod" →
      IsFeatEnabled p FeatStorageLocal = false ∧ IsFeatEnabled p FeatSSO = false ∧
        IsFeatEnabled p FeatStorageS3 = false) ∧
    (raw.Mode ≠ "prod" → ∀ t : Feature, IsFeatEnabled p t = true) := by
  have hres := GetProfile_ok_Feat h
  rw [if_pos hfeat] at hres
  constructor
  · intro hm
    have hf : p.Feat = "" := by rw [hres, if_pos hm]
    unfold IsFeatEnabled
    rw [hf]
    decide
  · intro hm t
    have hf : p.Feat = "ALL" := by rw [hres, if_neg hm]
    unfold IsFeatEnabled
    rw [IsFeatEnabled.loop_eq_true, hf]
    simp

/-- Witness of C6: without flags, `prod` resolves to a profile with no
    recognised feature enabled, and `dev`-like input to one with all. -/
theorem C6_production_safety_witness :
    ((GetProfile env0 (.ok rawProdNoFlags) world0).1 = .ok resolvedProdNoFlags ∧
      IsFeatEnabled resolvedProdNoFlags FeatStorageLocal = false ∧
      IsFeatEnabled resolvedProdNoFlags FeatSSO = false ∧
      IsFeatEnabled resolvedProdNoFlags FeatStorageS3 = false) ∧
    ((GetProfile env0 (.ok rawMyData) world0).1 = .ok resolvedMyData ∧
      ∀ t : Feature, IsFeatEnabled resolvedMyData t = true) :=
  ⟨⟨rfl, (C6_production_safety env0 rawProdNoFlags resolvedProdNoFlags world0 rfl rfl).1 rfl⟩,
   ⟨rfl, (C6_production_safety env0 rawMyData resolvedMyData world0 rfl rfl).2 (by decide)⟩⟩

/-- C7, as stated, fails: the input feat `foo` in mode `dev` resolves
    successfully to `Feat = "FOO"`, which is neither `"ALL"` nor a list of
    recognised flags. -/
theorem C7_feat_invariant_counterexample :
    (GetProfile env0 (.ok rawUnknownFlag) world0).1 = .ok resolvedUnknownFlag ∧
    resolvedUnknownFlag.Feat = "FOO" ∧
    ¬ FeatInvariant resolvedUnknownFlag.Feat :=
  ⟨rfl, by decide, by decide⟩

/-- C7, amended: on every successful resolution the resolved `Feat` is either
    exactly `"ALL"` or the upper-cased input feat, whose comma-separated tokens
    are not checked against the recognised flags; it satisfies the invariant
    of the specification exactly when the upper-cased input feat does. -/
theorem C7_feat_invariant_amended (env : Env) (raw p : Profile) (w : World)
    (h : (GetProfile env (.ok raw) w).1 = .ok p) :
    (p.Feat = "ALL" ∨ p.Feat = strings.ToUpper env.upperTable raw.Feat) ∧
    (FeatInvariant p.Feat ↔ FeatInvariant (strings.ToUpper env.upperTable raw.Feat)) := by
  obtain ⟨data, dataDir, fs, -, -, -, hp, -⟩ := GetProfile_ok_inv h
  have hf : p.Feat = (GetProfile.defaults env raw).Feat := by rw [hp]
  rw [hf, defaults_Feat]
  by_cases h1 : raw.Feat = ""
  · have hu : strings.ToUpper env.upperTable raw.Feat = "" :=
      (strings.ToUpper_eq_empty _ _).mpr h1
    rw [if_pos h1, hu]
    split_ifs
    · exact ⟨Or.inr rfl, Iff.rfl⟩
    · exact ⟨Or.inl rfl, by decide⟩
  · rw [if_neg h1]
    exact ⟨Or.inr rfl, Iff.rfl⟩

/-- Witness of C7, amended: the input feat `storage_local,sso` resolves to
    its upper-cased form, which satisfies the invariant. -/
theorem C7_feat_invariant_amended_witness :
    (GetProfile env0 (.ok rawDevFlags) world0).1 = .ok resolvedDevFlags ∧
    FeatInvariant resolvedDevFlags.Feat :=
  ⟨rfl, (C7_feat_invariant_amended env0 rawDevFlags resolvedDevFlags world0 rfl).2.mpr
    (by decide)⟩

/-- C8: on every successful resolution the returned `Data` is an absolute
    path (it begins with `/`) and carries no trailing `/`, whether the input
    data string was absolute, relative or empty. -/
theorem C8_data_absolute (env : Env) (raw p : Profile) (w : World)
    (h : (GetProfile env (.ok raw) w).1 = .ok p) :
    filepath.IsAbs p.Data = true ∧ p.Data.data.head? = some '/' ∧
      p.Data.data.getLast? ≠ some '/' := by
  obtain ⟨st, fs, hne, hst, hp, -, -, -⟩ := GetProfile_ok_data h
  rw [hp]
  refine ⟨path.HasPrefix_rooted st, ?_, ?_⟩
  · rw [path.rooted_data]
    rfl
  · obtain ⟨l, c, hd, hc⟩ := path.rooted_data_concat st hne hst
    rw [hd]
    simpa using hc

/-- Witness of C8: an absolute, a relative and an empty input data string
    all resolve to an absolute `Data` without trailing slash. -/
theorem C8_data_absolute_witness :
    ((GetProfile env0 (.ok rawProdNoFlags) world0).1 = .ok resolvedProdNoFlags ∧
      resolvedProdNoFlags.Data = "/home/memos/mydata") ∧
    ((GetProfile env0 (.ok rawMyData) world0).1 = .ok resolvedMyData ∧
      resolvedMyData.Data = "/home/memos/mydata") ∧
    ((GetProfile env0 (.ok rawDevFlags) world0).1 = .ok resolvedDevFlags ∧
      resolvedDevFlags.Data = "/home/memos") ∧
    (filepath.IsAbs resolvedProdNoFlags.Data = true ∧
      resolvedProdNoFlags.Data.data.head? = some '/' ∧
      resolvedProdNoFlags.Data.data.getLast? ≠ some '/') ∧
    (filepath.IsAbs resolvedMyData.Data = true ∧
      resolvedMyData.Data.data.head? = some '/' ∧
      resolvedMyData.Data.data.getLast? ≠ some '/') ∧
    (filepath.IsAbs resolvedDevFlags.Data = true ∧
      resolvedDevFlags.Data.data.head? = some '/' ∧
      resolvedDevFlags.Data.data.getLast? ≠ some '/') :=
  ⟨⟨rfl, rfl⟩, ⟨rfl, rfl⟩, ⟨rfl, rfl⟩,
    C8_data_absolute env0 rawProdNoFlags resolvedProdNoFlags world0 rfl,
    C8_data_absolute env0 rawMyData resolvedMyData world0 rfl,
    C8_data_absolute env0 rawDevFlags resolvedDevFlags world0 rfl⟩

/-- C4, as stated, fails in both directions.  With all features enabled by
    default, a data directory `/home/memos/newdata` that does not exist is
    created and the resolution succeeds; and on the existing directory `/etc`,
    in which nothing can be created, the resolution fails, with the error of
    `mkdir` rather than the data-directory-unavailable error. -/
theorem C4_data_directory_check_counterexample :
    (filepath.Abs (os.Getwd env0.getwdFailure world0.fs) (GetProfile.defaults env0 rawNewDir).Data
        = .ok "/home/memos/newdata" ∧
      os.Stat world0.fs "/home/memos/newdata"
        = .error (.pathError "stat" "/home/memos/newdata" .ENOENT) ∧
      (GetProfile env0 (.ok rawNewDir) world0).1 = .ok resolvedNewDir) ∧
    (filepath.Abs (os.Getwd env0.getwdFailure world0.fs) (GetProfile.defaults env0 rawReadOnly).Data = .ok "/etc" ∧
      os.Stat world0.fs "/etc" = .ok ⟨true⟩ ∧
      (GetProfile env0 (.ok rawReadOnly) world0).1
        = .error (.pathError "mkdir" "/etc/resources" .EACCES)) :=
  ⟨⟨rfl, rfl, rfl⟩, ⟨rfl, rfl, rfl⟩⟩

/-- C4, amended: when absolute-path resolution succeeds with a path other
    than `/`, the outcome depends on whether `STORAGE_LOCAL` is enabled on the
    resolved `Feat`.  When it is not enabled, nothing is created first:
    `GetProfile` fails with the data-directory-unavailable error, naming the
    path and wrapping the stat error, when `os.Stat` of the resolved data path
    fails (the directory does not exist), and returns a profile on that path
    when `os.Stat` succeeds (the directory exists; the entry is not checked to
    be a directory).  When it is enabled, `<data>/resources` is created with
    its missing parents before the check: if that creation succeeds, the data
    path is a directory afterwards and `GetProfile` returns a profile on it,
    whether or not it existed before; if it fails, `GetProfile` returns the
    error of the creation as it is. -/
theorem C4_data_directory_check_amended (env : Env) (raw : Profile) (w : World)
    (data : String)
    (hAbs : filepath.Abs (os.Getwd env.getwdFailure w.fs) (GetProfile.defaults env raw).Data
        = .ok data)
    (hroot : data ≠ "/") :
    (IsFeatEnabled (GetProfile.defaults env raw) FeatStorageLocal = false →
      (∀ err, os.Stat w.fs data = .error err →
        (GetProfile env (.ok raw) w).1 =
          .error (.wrapError
            ("unable to access data folder " ++ data ++ ", err " ++ err.Error) err)) ∧
      (∀ info, os.Stat w.fs data = .ok info →
        ∃ p, GetProfile env (.ok raw) w = (.ok p, w) ∧ p.Data = data)) ∧
    (IsFeatEnabled (GetProfile.defaults env raw) FeatStorageLocal = true →
      (∀ fs, os.MkdirAll w.fs (path.Join [data, "resources"]) = (none, fs) →
        os.Stat fs data = .ok ⟨true⟩ ∧
        ∃ p, GetProfile env (.ok raw) w = (.ok p, { w with fs := fs }) ∧ p.Data = data) ∧
      (∀ err fs, os.MkdirAll w.fs (path.Join [data, "resources"]) = (some err, fs) →
        GetProfile env (.ok raw) w = (.error err, { w with fs := fs }))) := by
  obtain ⟨st, hst, hd⟩ := filepath.Abs_rooted _ _ _ (os.Getwd_rooted _ _) hAbs
  subst hd
  have hne : st ≠ [] := by
    rintro rfl
    exact hroot path.rooted_nil
  constructor
  · intro hoff
    have hprov : GetProfile.provision
        { GetProfile.defaults env raw with Data := path.rooted st } w.fs = (none, w.fs) := by
      rw [provision_eq, hoff]
      simp
    constructor
    · intro err herr
      unfold GetProfile
      simp only [hAbs, hprov, checkDSN_rooted env w.fs st hne hst, herr]
    · intro info hinfo
      unfold GetProfile
      simp only [hAbs, hprov, checkDSN_rooted env w.fs st hne hst, hinfo]
      exact ⟨_, rfl, rfl⟩
  · intro hon
    constructor
    · intro fs hmk
      have hprov : GetProfile.provision
          { GetProfile.defaults env raw with Data := path.rooted st } w.fs = (none, fs) := by
        rw [provision_eq, hon]
        simpa using hmk
      rw [path.Join_rooted st "resources" hst path.plain_resources] at hmk
      have hstat : os.Stat fs (path.rooted st) = .ok ⟨true⟩ :=
        os.Stat_parent_of_Stat fs st "resources" hst path.plain_resources _
          (os.Stat_MkdirAll _ _ _ hmk)
      refine ⟨hstat, ?_⟩
      unfold GetProfile
      simp only [hAbs, hprov, checkDSN_rooted env fs st hne hst, hstat]
      exact ⟨_, rfl, rfl⟩
    · intro err fs hmk
      have hprov : GetProfile.provision
          { GetProfile.defaults env raw with Data := path.rooted st } w.fs
            = (some err, fs) := by
        rw [provision_eq, hon]
        simpa using hmk
      unfold GetProfile
      simp only [hAbs, hprov]

/-- Witness of C4, amended.  Not enabled: `prod` without flags and without
    data directory falls back to `/var/opt/memos`, which does not exist, and
    fails with the data-directory-unavailable error; on the existing
    `/home/memos/mydata` it returns a profile and leaves the world as it was.
    Enabled: the missing `/home/memos/newdata` is created and the resolution
    succeeds on it; in the read-only `/etc` the error of `mkdir` is returned. -/
theorem C4_data_directory_check_amended_witness :
    (os.Stat world0.fs "/var/opt/memos"
        = .error (.pathError "stat" "/var/opt/memos" .ENOENT) ∧
      (GetProfile env0 (.ok rawProdDefault) world0).1 =
        .error (.wrapError
          ("unable to access data folder " ++ "/var/opt/memos" ++ ", err " ++
            (GoError.pathError "stat" "/var/opt/memos" .ENOENT).Error)
          (.pathError "stat" "/var/opt/memos" .ENOENT))) ∧
    (os.Stat world0.fs "/home/memos/mydata" = .ok ⟨true⟩ ∧
      ∃ p, GetProfile env0 (.ok rawProdNoFlags) world0 = (.ok p, world0) ∧
        p.Data = "/home/memos/mydata") ∧
    (os.Stat world0.fs "/home/memos/newdata"
        = .error (.pathError "stat" "/home/memos/newdata" .ENOENT) ∧
      os.Stat (os.MkdirAll world0.fs (path.Join ["/home/memos/newdata", "resources"])).2
        "/home/memos/newdata" = .ok ⟨true⟩ ∧
      ∃ p, GetProfile env0 (.ok rawNewDir) world0 =
          (.ok p, { world0 with
            fs := (os.MkdirAll world0.fs
              (path.Join ["/home/memos/newdata", "resources"])).2 }) ∧
        p.Data = "/home/memos/newdata") ∧
    GetProfile env0 (.ok rawReadOnly) world0 =
      (.error (.pathError "mkdir" "/etc/resources" .EACCES), world0) :=
  ⟨⟨rfl,
      ((C4_data_directory_check_amended env0 rawProdDefault world0 "/var/opt/memos"
        rfl (by decide)).1 (by decide)).1 _ rfl⟩,
    ⟨rfl,
      ((C4_data_directory_check_amended env0 rawProdNoFlags world0 "/home/memos/mydata"
        rfl (by decide)).1 (by decide)).2 _ rfl⟩,
    ⟨rfl,
      ((C4_data_directory_check_amended env0 rawNewDir world0 "/home/memos/newdata"
        rfl (by decide)).2 (by decide)).1 _ rfl⟩,
    ((C4_data_directory_check_amended env0 rawReadOnly world0 "/etc"
      rfl (by decide)).2 (by decide)).2 _ world0.fs rfl⟩

/-- C9: on every successful resolution, if `STORAGE_LOCAL` is enabled on the
    resolved `Feat` the directory `<Data>/resources` exists afterwards, and if
    it is not enabled nothing is created and the world is left unchanged; and
    if creating the directory fails, the resolution fails with that error and
    returns no profile. -/
theorem C9_local_storage_provisioning (env : Env) (raw : Profile) (w : World)
    :
    (∀ p, (GetProfile env (.ok raw) w).1 = .ok p →
      IsFeatEnabled p FeatStorageLocal = true →
      os.Stat (GetProfile env (.ok raw) w).2.fs (p.Data ++ "/resources") = .ok ⟨true⟩) ∧
    (∀ p, (GetProfile env (.ok raw) w).1 = .ok p →
      IsFeatEnabled p FeatStorageLocal = false →
      (GetProfile env (.ok raw) w).2 = w) ∧
    (∀ data err fs,
      filepath.Abs (os.Getwd env.getwdFailure w.fs) (GetProfile.defaults env raw).Data
        = .ok data →
      IsFeatEnabled (GetProfile.defaults env raw) FeatStorageLocal = true →
      os.MkdirAll w.fs (path.Join [data, "resources"]) = (some err, fs) →
      GetProfile env (.ok raw) w = (.error err, { w with fs := fs })) := by
  refine ⟨?_, ?_, ?_⟩
  · intro p h hon
    obtain ⟨st, fs, hne, hst, hp, -, hprov, hw⟩ := GetProfile_ok_data h
    have hfeat : p.Feat = (GetProfile.defaults env raw).Feat := by
      obtain ⟨_, _, _, -, -, -, hp2, -⟩ := GetProfile_ok_inv h
      rw [hp2]
    rw [provision_eq, IsFeatEnabled_congr _ p _ hfeat.symm, hon] at hprov
    simp only [if_true] at hprov
    rw [path.Join_rooted st "resources" hst path.plain_resources] at hprov
    have hstat := os.Stat_MkdirAll _ _ _ hprov
    rw [hw, hp]
    have : path.rooted st ++ "/resources" = path.rooted (st ++ ["resources"]) := by
      rw [path.rooted_concat st "resources" hne, String.append_assoc]
      rfl
    rw [this]
    exact hstat
  · intro p h hoff
    obtain ⟨st, fs, hne, hst, hp, -, hprov, hw⟩ := GetProfile_ok_data h
    have hfeat : p.Feat = (GetProfile.defaults env raw).Feat := by
      obtain ⟨_, _, _, -, -, -, hp2, -⟩ := GetProfile_ok_inv h
      rw [hp2]
    rw [provision_eq, IsFeatEnabled_congr _ p _ hfeat.symm, hoff] at hprov
    simp only [Bool.false_eq_true, if_false, Prod.mk.injEq, true_and] at hprov
    rw [hw, ← hprov]
  · intro data err fs hAbs hon hmk
    have hprov : GetProfile.provision
        { GetProfile.defaults env raw with Data := data } w.fs = (some err, fs) := by
      rw [provision_eq, hon]
      simpa using hmk
    unfold GetProfile
    simp only [hAbs, hprov]

/-- Witness of C9: with all features enabled by default,
    `/home/memos/mydata/resources` does not exist before the call and is a
    directory after it. -/
theorem C9_local_storage_provisioning_witness :
    (GetProfile env0 (.ok rawMyData) world0).1 = .ok resolvedMyData ∧
    IsFeatEnabled resolvedMyData FeatStorageLocal = true ∧
    os.Stat world0.fs "/home/memos/mydata/resources"
      = .error (.pathError "stat" "/home/memos/mydata/resources" .ENOENT) ∧
    os.Stat (GetProfile env0 (.ok rawMyData) world0).2.fs
      (resolvedMyData.Data ++ "/resources") = .ok ⟨true⟩ :=
  ⟨rfl, by decide, rfl,
    (C9_local_storage_provisioning env0 rawMyData world0).1
      resolvedMyData rfl (by decide)⟩

/-- C10: when `STORAGE_LOCAL` is enabled on the resolved `Feat`, the
    absolutised data path is not `/`, and creating `<data>/resources` (with
    missing parents) succeeds, then the path handed to `checkDSN` is absolute,
    trimming trailing slashes leaves it unchanged, it is a directory in the
    file system left by the creation, `checkDSN` returns it, and `GetProfile`
    succeeds on it. -/
theorem C10_created_data_directory_accepted (env : Env) (raw : Profile) (w : World)
    (data : String) (fs : os.FS)
    (hAbs : filepath.Abs (os.Getwd env.getwdFailure w.fs) (GetProfile.defaults env raw).Data
        = .ok data)
    (hroot : data ≠ "/")
    (hon : IsFeatEnabled (GetProfile.defaults env raw) FeatStorageLocal = true)
    (hmk : os.MkdirAll w.fs (path.Join [data, "resources"]) = (none, fs)) :
    filepath.IsAbs data = true ∧
    strings.TrimRight data "/" = data ∧
    os.Stat fs data = .ok ⟨true⟩ ∧
    checkDSN env fs data = .ok data ∧
    ∃ p, GetProfile env (.ok raw) w = (.ok p, { w with fs := fs }) ∧ p.Data = data := by
  obtain ⟨st, hst, hd⟩ := filepath.Abs_rooted _ _ _ (os.Getwd_rooted _ _) hAbs
  subst hd
  have hne : st ≠ [] := by
    rintro rfl
    exact hroot path.rooted_nil
  have hprov : GetProfile.provision
      { GetProfile.defaults env raw with Data := path.rooted st } w.fs = (none, fs) := by
    rw [provision_eq, hon]
    simpa using hmk
  rw [path.Join_rooted st "resources" hst path.plain_resources] at hmk
  have hstat : os.Stat fs (path.rooted st) = .ok ⟨true⟩ :=
    os.Stat_parent_of_Stat fs st "resources" hst path.plain_resources _
      (os.Stat_MkdirAll _ _ _ hmk)
  have hchk : checkDSN env fs (path.rooted st) = .ok (path.rooted st) := by
    rw [checkDSN_rooted env fs st hne hst, hstat]
  refine ⟨path.HasPrefix_rooted st, path.TrimRight_rooted st hne hst, hstat, hchk, ?_⟩
  unfold GetProfile
  simp only [hAbs, hprov, hchk]
  exact ⟨_, rfl, rfl⟩

/-- Witness of C10: the data directory `/home/memos/newdata` is missing
    before the call; it is created as the parent of `resources`, and the
    resolution succeeds on it. -/
theorem C10_created_data_directory_accepted_witness :
    os.Stat world0.fs "/home/memos/newdata"
      = .error (.pathError "stat" "/home/memos/newdata" .ENOENT) ∧
    (GetProfile env0 (.ok rawNewDir) world0).1 = .ok resolvedNewDir ∧
    os.Stat (os.MkdirAll world0.fs (path.Join ["/home/memos/newdata", "resources"])).2
      "/home/memos/newdata" = .ok ⟨true⟩ ∧
    checkDSN env0 (os.MkdirAll world0.fs (path.Join ["/home/memos/newdata", "resources"])).2
      "/home/memos/newdata" = .ok "/home/memos/newdata" :=
  ⟨rfl, rfl,
    (C10_created_data_directory_accepted env0 rawNewDir world0 "/home/memos/newdata"
      (os.MkdirAll world0.fs (path.Join ["/home/memos/newdata", "resources"])).2
      rfl (by decide) (by decide) rfl).2.2.1,
    (C10_created_data_directory_accepted env0 rawNewDir world0 "/home/memos/newdata"
      (os.MkdirAll world0.fs (path.Join ["/home/memos/newdata", "resources"])).2
      rfl (by decide) (by decide) rfl).2.2.2.1⟩

end profile
